import Mathlib

/-!
Verification of the Private Set-Membership Test protocol
(private_set_membership.py) against its specification.

The additively homomorphic cryptosystem (Paillier, provided by the
external phe library) is out of scope for the repository and is
specified only through its algebraic contract (spec section 6); it is
modelled here as a structure bundling the operations with that
contract.  Randomness (the blinding draw of random.randint) is
threaded as an explicit parameter, as the spec design notes prescribe
for verifiable blinding.
-/

/-- Homomorphic scheme contract from spec section 6: key generation,
encryption, decryption, homomorphic addition and homomorphic scalar
multiplication, together with the algebraic laws the protocol relies
on for a generated key pair. -/
structure Scheme where
  PK : Type
  SK : Type
  Ct : Type
  keygen : Nat → PK × SK
  encrypt : PK → Int → Ct
  decrypt : SK → Ct → Int
  add : Ct → Ct → Ct
  scalarMul : Ct → Int → Ct
  decrypt_encrypt : ∀ (key_length : Nat) (v : Int),
    decrypt (keygen key_length).2 (encrypt (keygen key_length).1 v) = v
  decrypt_add : ∀ (key_length : Nat) (a b : Ct),
    decrypt (keygen key_length).2 (add a b) =
      decrypt (keygen key_length).2 a + decrypt (keygen key_length).2 b
  decrypt_scalarMul : ∀ (key_length : Nat) (a : Ct) (k : Int),
    decrypt (keygen key_length).2 (scalarMul a k) =
      decrypt (keygen key_length).2 a * k

/-- Plaintext-passthrough model of the scheme contract, the trivial
fake the spec design notes call for; it instantiates the theorems at
concrete inputs. -/
def idScheme : Scheme where
  PK := Unit
  SK := Unit
  Ct := Int
  keygen := fun _ => ((), ())
  encrypt := fun _ v => v
  decrypt := fun _ c => c
  add := fun a b => a + b
  scalarMul := fun a k => a * k
  decrypt_encrypt := fun _ _ => rfl
  decrypt_add := fun _ _ _ => rfl
  decrypt_scalarMul := fun _ _ _ => rfl

/-- Ciphertext of the passthrough scheme holding a given integer. -/
def idCt (v : Int) : idScheme.Ct := v

/-- Client state: both key fields start absent (None in the source)
and are filled in by generate_keys. -/
structure Client (S : Scheme) where
  public_key : Option S.PK
  private_key : Option S.SK

/-- Client constructor: no keys yet. -/
def Client.init (S : Scheme) : Client S :=
  { public_key := none, private_key := none }

/-- Client.generate_keys: draw a key pair, store both halves, return
the public key. -/
def Client.generate_keys {S : Scheme} (cl : Client S) (key_length : Nat) :
    Client S × S.PK :=
  let kp := S.keygen key_length
  ({ cl with public_key := some kp.1, private_key := some kp.2 }, kp.1)

/-- Loop of Client.encrypt_query: current_power is repeatedly
multiplied by c and each product is encrypted, n times in total. -/
def encryptPowersAux (S : Scheme) (pk : S.PK) (c : Int) :
    Int → Nat → List S.Ct
  | _, 0 => []
  | current_power, Nat.succ k =>
      S.encrypt pk (current_power * c) ::
        encryptPowersAux S pk c (current_power * c) k

/-- Client.encrypt_query: requires a public key, then returns the list
of encryptions of the powers c, c^2, ..., c^n. -/
def Client.encrypt_query {S : Scheme} (cl : Client S) (c : Int) (n : Nat) :
    Except String (List S.Ct) :=
  match cl.public_key with
  | none => Except.error ("Keys must be generated first. Call generate_keys()")
  | some pk => Except.ok (encryptPowersAux S pk c 1 n)

/-- Client.decrypt_result: requires the private key. -/
def Client.decrypt_result {S : Scheme} (cl : Client S)
    (encrypted_result : S.Ct) : Except String Int :=
  match cl.private_key with
  | none => Except.error ("Private key not available")
  | some sk => Except.ok (S.decrypt sk encrypted_result)

/-- Client.check_membership: true iff the decrypted result is exactly 0. -/
def Client.check_membership (decrypted_result : Int) : Bool :=
  decrypted_result == 0

/-- One pass of the Vieta loop in Server._compute_polynomial_coefficients:
multiply the current coefficient list (leading coefficient first) by
(x - s_i).  new_coeffs first receives the old coefficients shifted in
place (multiply by x, realised by the trailing extra slot), then every
old coefficient scaled by -s_i is added one position to the right. -/
def mulByRoot (coeffs : List Int) (s_i : Int) : List Int :=
  List.zipWith (· + ·) (coeffs ++ [0]) (0 :: coeffs.map (fun a => a * (-s_i)))

/-- Server._compute_polynomial_coefficients: coefficients of
(x - s1)(x - s2)...(x - sn) with the leading coefficient first; the
empty dataset gives the constant polynomial [1], otherwise the loop
starts from (x - s1), i.e. [1, -s1], and multiplies in the remaining
roots one at a time. -/
def compute_polynomial_coefficients (dataset : List Int) : List Int :=
  match dataset with
  | [] => [1]
  | s1 :: rest => rest.foldl mulByRoot [1, -s1]

/-- Server state: deduplicated dataset, its size n, and the eagerly
computed polynomial coefficients. -/
structure Server where
  dataset : List Int
  n : Nat
  coefficients : List Int

/-- Server constructor: deduplicate the dataset (the unspecified
iteration order of the Python set is modelled by List.dedup; the
resulting coefficients are proved order-independent below), record its
size, and compute the polynomial coefficients once. -/
def Server.init (dataset : List Int) : Server :=
  { dataset := dataset.dedup
    n := dataset.dedup.length
    coefficients := compute_polynomial_coefficients dataset.dedup }

/-- The error message raised on a degree mismatch. -/
def degree_mismatch_message (expected got : Nat) : String :=
  String.append (String.append (String.append ("Expected ") (toString expected))
    (" encrypted powers, got ")) (toString got)

/-- Helper for one term of the homomorphic evaluation loop: add to the
accumulator the scalar product of the k-th encrypted power with the
coefficient a_k.  Indexing a position outside the list is unreachable
in the protocol because the degree has been checked. -/
def addTerm (S : Scheme) (result : S.Ct) (a_k : Int) : Option S.Ct → S.Ct
  | some ct => S.add result (S.scalarMul ct a_k)
  | none => result

/-- Body of the loop in Server.evaluate_polynomial_homomorphic for the
iteration k = i + 1: look up a_k at index n - k (a_n first), skip the
term when a_k is exactly zero, otherwise add encrypted_powers[k-1]
scalar-multiplied by a_k. -/
def evalPolyStep (S : Scheme) (coefficients : List Int) (n : Nat)
    (encrypted_powers : List S.Ct) (result : S.Ct) (i : Nat) : S.Ct :=
  if coefficients.getD (n - (i + 1)) 0 ≠ 0 then
    addTerm S result (coefficients.getD (n - (i + 1)) 0)
      (encrypted_powers.get? i)
  else result

/-- The homomorphic evaluation loop: starting from the encryption of
the constant coefficient, run evalPolyStep for i = 0, ..., n - 1. -/
def evalPolyLoop (S : Scheme) (coefficients : List Int) (n : Nat)
    (encrypted_powers : List S.Ct) (acc0 : S.Ct) : S.Ct :=
  (List.range n).foldl (evalPolyStep S coefficients n encrypted_powers) acc0

/-- Server.evaluate_polynomial_homomorphic: checks the degree, then
folds the homomorphic sum Enc(a_0) + sum over k of
encrypted_powers[k-1] scalar-multiplied by a_k, skipping zero
coefficients.  Enc(a_0) encrypts coefficients[-1], the last entry. -/
def Server.evaluate_polynomial_homomorphic (S : Scheme) (sv : Server)
    (public_key : S.PK) (encrypted_powers : List S.Ct) :
    Except String S.Ct :=
  if encrypted_powers.length ≠ sv.n then
    Except.error (degree_mismatch_message sv.n encrypted_powers.length)
  else
    Except.ok (evalPolyLoop S sv.coefficients sv.n encrypted_powers
      (S.encrypt public_key (sv.coefficients.getD (sv.coefficients.length - 1) 0)))

/-- Spec-worded variant of the evaluation step with no skipping of
zero coefficients (spec section 4.2: skipping is a pure optimization
that must not change the decrypted result); used only to compare
decryptions with the implemented, skipping version. -/
def evalPolyStepNoSkip (S : Scheme) (coefficients : List Int) (n : Nat)
    (encrypted_powers : List S.Ct) (result : S.Ct) (i : Nat) : S.Ct :=
  addTerm S result (coefficients.getD (n - (i + 1)) 0)
    (encrypted_powers.get? i)

/-- Spec-worded evaluation with no zero-coefficient skipping. -/
def evaluate_polynomial_homomorphic_spec (S : Scheme) (sv : Server)
    (public_key : S.PK) (encrypted_powers : List S.Ct) :
    Except String S.Ct :=
  if encrypted_powers.length ≠ sv.n then
    Except.error (degree_mismatch_message sv.n encrypted_powers.length)
  else
    Except.ok ((List.range sv.n).foldl
      (evalPolyStepNoSkip S sv.coefficients sv.n encrypted_powers)
      (S.encrypt public_key (sv.coefficients.getD (sv.coefficients.length - 1) 0)))

/-- Server.blind_and_return: multiply the encrypted result by the
blinding factor r.  r stands for the draw
random.randint(1, max_blinding_factor) and is passed explicitly; the
theorems below constrain it to the interval the source draws from. -/
def Server.blind_and_return (S : Scheme) (sv : Server)
    (encrypted_result : S.Ct) (max_blinding_factor : Int) (r : Int) : S.Ct :=
  S.scalarMul encrypted_result r

/-- Diagnostic record assembled by run_protocol (the protocol_info
dict of the source). -/
structure ProtocolInfo where
  query : Int
  dataset_size : Nat
  polynomial_degree : Nat
  coefficients : List Int
  decrypted_result : Int
  is_member : Bool
  actual_membership : Bool
  deriving DecidableEq

/-- run_protocol: the five protocol steps followed by assembly of the
diagnostic record.  The blinding draw r is passed in explicitly; the
source draws it uniformly from [1, 1000]. -/
def run_protocol (S : Scheme) (client_query : Int)
    (server_dataset : List Int) (key_length : Nat) (r : Int) :
    Except String (Bool × ProtocolInfo) :=
  let server := Server.init server_dataset
  let p := Client.generate_keys (Client.init S) key_length
  let client := p.1
  let public_key := p.2
  match client.encrypt_query client_query server.n with
  | Except.error e => Except.error e
  | Except.ok encrypted_powers =>
    match Server.evaluate_polynomial_homomorphic S server public_key
        encrypted_powers with
    | Except.error e => Except.error e
    | Except.ok encrypted_polynomial_value =>
      let blinded_result := Server.blind_and_return S server
        encrypted_polynomial_value 1000 r
      match client.decrypt_result blinded_result with
      | Except.error e => Except.error e
      | Except.ok decrypted_result =>
        let is_member := Client.check_membership decrypted_result
        Except.ok (is_member,
          { query := client_query
            dataset_size := server_dataset.length
            polynomial_degree := server.n
            coefficients := server.coefficients
            decrypted_result := decrypted_result
            is_member := is_member
            actual_membership := server_dataset.contains client_query })

/-- Evaluation of a coefficient list (leading coefficient first) at x
in plain integer arithmetic, exactly as the spec words it: the sum of
a_k times x to the k, the entry at position i carrying exponent
length - 1 - i. -/
def evalPolyAt (coeffs : List Int) (x : Int) : Int :=
  ∑ i ∈ Finset.range coeffs.length,
    coeffs.getD i 0 * x ^ (coeffs.length - 1 - i)

/-- Horner-form evaluation of a coefficient list; proof-side helper
shown equal to evalPolyAt below. -/
def horner (coeffs : List Int) (x : Int) : Int :=
  coeffs.foldl (fun acc a => acc * x + a) 0

/-- Auxiliary recursion equivalent to the tail of mulByRoot on a cons
cell; proof device for commutativity of root multiplication. -/
def shiftAddAux (s : Int) : List Int → Int → List Int
  | [], carry => [carry]
  | b :: t, carry => (b + carry) :: shiftAddAux s t (b * (-s))

/-- Folding the Horner body from an arbitrary accumulator splits off
the accumulator scaled by x to the length of the list. -/
theorem foldl_mul_add (x : Int) :
    ∀ (l : List Int) (acc : Int),
      l.foldl (fun a b => a * x + b) acc
        = acc * x ^ l.length + l.foldl (fun a b => a * x + b) 0 := by
  intro l
  induction l with
  | nil => intro acc; simp
  | cons a t ih =>
    intro acc
    simp only [List.foldl_cons, List.length_cons]
    rw [ih (acc * x + a), ih (0 * x + a)]
    ring

/-- Horner recurrence on a cons cell. -/
theorem horner_cons (a : Int) (t : List Int) (x : Int) :
    horner (a :: t) x = a * x ^ t.length + horner t x := by
  unfold horner
  simp only [List.foldl_cons]
  rw [foldl_mul_add x t (0 * x + a), foldl_mul_add x t 0]
  ring

/-- Appending a zero coefficient multiplies the Horner value by x. -/
theorem horner_append_zero (l : List Int) (x : Int) :
    horner (l ++ [0]) x = horner l x * x := by
  unfold horner
  rw [List.foldl_append]
  simp

/-- A leading zero coefficient does not change the Horner value. -/
theorem horner_cons_zero (l : List Int) (x : Int) :
    horner (0 :: l) x = horner l x := by
  unfold horner
  simp

/-- Scaling every coefficient scales the Horner fold. -/
theorem foldl_map_mul (x k : Int) :
    ∀ (l : List Int) (acc : Int),
      (l.map (fun a => a * k)).foldl (fun a b => a * x + b) (acc * k)
        = l.foldl (fun a b => a * x + b) acc * k := by
  intro l
  induction l with
  | nil => intro acc; simp
  | cons a t ih =>
    intro acc
    simp only [List.map_cons, List.foldl_cons]
    have h : acc * k * x + a * k = (acc * x + a) * k := by ring
    rw [h, ih (acc * x + a)]

/-- Scaling every coefficient scales the Horner value. -/
theorem horner_map_mul (l : List Int) (x k : Int) :
    horner (l.map (fun a => a * k)) x = horner l x * k := by
  unfold horner
  have h := foldl_map_mul x k l 0
  simpa using h

/-- The Horner fold is additive over pointwise sums of equal-length
coefficient lists. -/
theorem foldl_zipWith_add (x : Int) :
    ∀ (l₁ l₂ : List Int), l₁.length = l₂.length →
      ∀ (acc₁ acc₂ : Int),
        (List.zipWith (· + ·) l₁ l₂).foldl (fun a b => a * x + b) (acc₁ + acc₂)
          = l₁.foldl (fun a b => a * x + b) acc₁
            + l₂.foldl (fun a b => a * x + b) acc₂ := by
  intro l₁
  induction l₁ with
  | nil =>
    intro l₂ h acc₁ acc₂
    cases l₂ with
    | nil => simp
    | cons b u => simp at h
  | cons a t ih =>
    intro l₂ h acc₁ acc₂
    cases l₂ with
    | nil => simp at h
    | cons b u =>
      simp only [List.zipWith_cons_cons, List.foldl_cons]
      have h2 : t.length = u.length := by simpa using h
      have e : (acc₁ + acc₂) * x + (a + b) = (acc₁ * x + a) + (acc₂ * x + b) := by
        ring
      rw [e, ih u h2 (acc₁ * x + a) (acc₂ * x + b)]

/-- Multiplying the coefficient list by the root factor (x - s)
multiplies the Horner value by (x - s). -/
theorem horner_mulByRoot (c : List Int) (s x : Int) :
    horner (mulByRoot c s) x = horner c x * (x - s) := by
  have hlen : (c ++ [0]).length = (0 :: c.map (fun a => a * (-s))).length := by
    simp
  have hz := foldl_zipWith_add x (c ++ [0]) (0 :: c.map (fun a => a * (-s)))
    hlen 0 0
  have hzip : horner (mulByRoot c s) x
      = horner (c ++ [0]) x + horner (0 :: c.map (fun a => a * (-s))) x := by
    unfold mulByRoot horner
    simpa only [zero_add] using hz
  rw [hzip, horner_append_zero, horner_cons_zero, horner_map_mul]
  ring

/-- The Horner value equals the spec-worded power sum. -/
theorem horner_eq_evalPolyAt : ∀ (l : List Int) (x : Int),
    horner l x = evalPolyAt l x := by
  intro l
  induction l with
  | nil => intro x; simp [horner, evalPolyAt]
  | cons a t ih =>
    intro x
    rw [horner_cons, ih x]
    unfold evalPolyAt
    rw [List.length_cons, Finset.sum_range_succ']
    simp only [List.getD_cons_succ, List.getD_cons_zero, Nat.add_sub_cancel,
      Nat.sub_zero]
    rw [add_comm]
    congr 1
    apply Finset.sum_congr rfl
    intro i _
    congr 2
    omega

/-- The coefficient computation is the fold of mulByRoot from the
constant polynomial [1]. -/
theorem compute_eq_foldl (l : List Int) :
    compute_polynomial_coefficients l = l.foldl mulByRoot [1] := by
  cases l with
  | nil => rfl
  | cons s rest =>
    unfold compute_polynomial_coefficients
    simp only [List.foldl_cons]
    congr 1
    simp [mulByRoot]

/-- Horner value of a mulByRoot fold: the start value times the
product of the root factors. -/
theorem horner_foldl_mulByRoot :
    ∀ (l : List Int) (c0 : List Int) (x : Int),
      horner (l.foldl mulByRoot c0) x
        = horner c0 x * (l.map (fun s => x - s)).prod := by
  intro l
  induction l with
  | nil => intro c0 x; simp
  | cons s rest ih =>
    intro c0 x
    simp only [List.foldl_cons, List.map_cons, List.prod_cons]
    rw [ih (mulByRoot c0 s) x, horner_mulByRoot]
    ring

/-- The computed coefficients evaluate to the product of the root
factors. -/
theorem horner_compute (l : List Int) (x : Int) :
    horner (compute_polynomial_coefficients l) x
      = (l.map (fun s => x - s)).prod := by
  rw [compute_eq_foldl, horner_foldl_mulByRoot]
  simp [horner]

/-- mulByRoot grows the coefficient list by one entry. -/
theorem mulByRoot_length (c : List Int) (s : Int) :
    (mulByRoot c s).length = c.length + 1 := by
  simp [mulByRoot]

/-- Length of a mulByRoot fold. -/
theorem foldl_mulByRoot_length :
    ∀ (l : List Int) (c0 : List Int),
      (l.foldl mulByRoot c0).length = c0.length + l.length := by
  intro l
  induction l with
  | nil => intro c0; simp
  | cons s rest ih =>
    intro c0
    simp only [List.foldl_cons, List.length_cons]
    rw [ih, mulByRoot_length]
    omega

/-- The computed coefficient list has one more entry than the dataset. -/
theorem compute_length (l : List Int) :
    (compute_polynomial_coefficients l).length = l.length + 1 := by
  rw [compute_eq_foldl, foldl_mulByRoot_length]
  simp [Nat.add_comm]

/-- The zipWith form of the mulByRoot tail equals shiftAddAux. -/
theorem zipWith_shiftAddAux (s : Int) :
    ∀ (t : List Int) (p : Int),
      List.zipWith (· + ·) (t ++ [0]) (p :: t.map (fun a => a * (-s)))
        = shiftAddAux s t p := by
  intro t
  induction t with
  | nil => intro p; simp [shiftAddAux]
  | cons b u ih =>
    intro p
    simp only [List.cons_append, List.map_cons, List.zipWith_cons_cons,
      shiftAddAux]
    rw [ih (b * (-s))]

/-- mulByRoot on a cons cell keeps the head and applies shiftAddAux to
the tail. -/
theorem mulByRoot_cons (a : Int) (t : List Int) (s : Int) :
    mulByRoot (a :: t) s = a :: shiftAddAux s t (a * (-s)) := by
  unfold mulByRoot
  simp only [List.cons_append, List.map_cons, List.zipWith_cons_cons,
    add_zero]
  rw [zipWith_shiftAddAux]

/-- Generalised commutation of the shiftAddAux passes for two roots s
and t, with the carries tracked through the recursion. -/
theorem shiftAddAux_comm (s t : Int) :
    ∀ (u : List Int) (a b : Int),
      shiftAddAux s (shiftAddAux t u (-(t * a))) (-(s * a) + s * t * b)
        = shiftAddAux t (shiftAddAux s u (-(s * a))) (-(t * a) + t * s * b) := by
  intro u
  induction u with
  | nil =>
    intro a b
    simp only [shiftAddAux]
    have h1 : -(t * a) + (-(s * a) + s * t * b)
        = -(s * a) + (-(t * a) + t * s * b) := by ring
    have h2 : -(t * a) * (-s) = -(s * a) * (-t) := by ring
    rw [h1, h2]
  | cons c u' ih =>
    intro a b
    simp only [shiftAddAux]
    congr 1
    · ring
    · have e1 : c * (-t) = -(t * c) := by ring
      have e2 : (c + -(t * a)) * (-s) = -(s * c) + s * t * a := by ring
      have e3 : c * (-s) = -(s * c) := by ring
      have e4 : (c + -(s * a)) * (-t) = -(t * c) + t * s * a := by ring
      rw [e1, e2, e3, e4]
      exact ih c a

/-- Multiplying in two roots commutes. -/
theorem mulByRoot_comm (c : List Int) (s t : Int) :
    mulByRoot (mulByRoot c s) t = mulByRoot (mulByRoot c t) s := by
  cases c with
  | nil => simp [mulByRoot]
  | cons a u =>
    rw [mulByRoot_cons a u s, mulByRoot_cons a u t,
      mulByRoot_cons, mulByRoot_cons]
    congr 1
    have hc := shiftAddAux_comm s t u a 0
    simp only [mul_zero, add_zero] at hc
    have e1 : a * (-s) = -(s * a) := by ring
    have e2 : a * (-t) = -(t * a) := by ring
    rw [e1, e2]
    exact hc.symm

/-- Folding mulByRoot over a permutation of the roots gives the same
coefficient list. -/
theorem foldl_mulByRoot_perm {l₁ l₂ : List Int} (h : l₁.Perm l₂) :
    ∀ c0 : List Int, l₁.foldl mulByRoot c0 = l₂.foldl mulByRoot c0 := by
  induction h with
  | nil => intro c0; rfl
  | cons x _ ih =>
    intro c0
    simp only [List.foldl_cons]
    exact ih (mulByRoot c0 x)
  | swap x y l =>
    intro c0
    simp only [List.foldl_cons]
    rw [mulByRoot_comm]
  | trans _ _ ih1 ih2 =>
    intro c0
    rw [ih1 c0, ih2 c0]

/-- mulByRoot keeps the head of a non-empty coefficient list. -/
theorem foldl_mulByRoot_head :
    ∀ (l : List Int) (a : Int) (t : List Int),
      (l.foldl mulByRoot (a :: t)).head? = some a := by
  intro l
  induction l with
  | nil => intro a t; rfl
  | cons s rest ih =>
    intro a t
    simp only [List.foldl_cons]
    rw [mulByRoot_cons, ih]

/-- The computed coefficient list is monic: its first entry is 1. -/
theorem compute_head (l : List Int) :
    (compute_polynomial_coefficients l).head? = some 1 := by
  cases l with
  | nil => rfl
  | cons s rest => exact foldl_mulByRoot_head rest 1 [-s]

/-- A product of differences with a value outside the list is
non-zero. -/
theorem prod_sub_ne_zero (l : List Int) (x : Int) (h : x ∉ l) :
    (l.map (fun s => x - s)).prod ≠ 0 := by
  induction l with
  | nil => simp
  | cons s rest ih =>
    simp only [List.map_cons, List.prod_cons]
    have h1 : x ≠ s := by
      intro e
      exact h (by rw [e]; exact List.mem_cons_self s rest)
    have h2 : x ∉ rest := fun hm => h (List.mem_cons_of_mem s hm)
    exact mul_ne_zero (sub_ne_zero.mpr h1) (ih h2)

/-- A product of differences with a member of the list is zero. -/
theorem prod_sub_eq_zero (l : List Int) (x : Int) (h : x ∈ l) :
    (l.map (fun s => x - s)).prod = 0 := by
  induction l with
  | nil => cases h
  | cons s rest ih =>
    simp only [List.map_cons, List.prod_cons]
    rcases List.mem_cons.mp h with he | hm
    · rw [he]; simp
    · rw [ih hm]; ring

/-- The spec-worded evaluation of a list of length n + 1 splits into
the constant coefficient (at index n) plus the terms the evaluation
loop accumulates, indexed the way the loop indexes them. -/
theorem evalPolyAt_split (coeffs : List Int) (n : Nat) (c : Int)
    (h : coeffs.length = n + 1) :
    evalPolyAt coeffs c
      = coeffs.getD n 0
        + ∑ i ∈ Finset.range n, coeffs.getD (n - (i + 1)) 0 * c ^ (i + 1) := by
  unfold evalPolyAt
  rw [h]
  have h3 : ∀ i ∈ Finset.range (n + 1),
      coeffs.getD i 0 * c ^ (n + 1 - 1 - i)
        = (fun j => coeffs.getD (n - j) 0 * c ^ j) (n + 1 - 1 - i) := by
    intro i hi
    have hi' : i ≤ n := by
      have := Finset.mem_range.mp hi
      omega
    simp only []
    have e1 : n + 1 - 1 - i = n - i := by omega
    rw [e1]
    have e2 : n - (n - i) = i := by omega
    rw [e2]
  have hr := Finset.sum_range_reflect
    (fun j => coeffs.getD (n - j) 0 * c ^ j) (n + 1)
  rw [Finset.sum_congr rfl h3, hr, Finset.sum_range_succ']
  simp only [Nat.sub_zero, pow_zero, mul_one]
  rw [add_comm]

/-- The encryption loop produces n ciphertexts. -/
theorem encryptPowersAux_length (S : Scheme) (pk : S.PK) (c : Int) :
    ∀ (n : Nat) (cur : Int), (encryptPowersAux S pk c cur n).length = n := by
  intro n
  induction n with
  | zero => intro cur; rfl
  | succ k ih => intro cur; simp [encryptPowersAux, ih]

/-- The i-th output of the encryption loop encrypts cur times c to the
i + 1. -/
theorem encryptPowersAux_get (S : Scheme) (pk : S.PK) (c : Int) :
    ∀ (n : Nat) (cur : Int) (i : Nat)
      (h : i < (encryptPowersAux S pk c cur n).length),
      (encryptPowersAux S pk c cur n).get ⟨i, h⟩
        = S.encrypt pk (cur * c ^ (i + 1)) := by
  intro n
  induction n with
  | zero => intro cur i h; simp [encryptPowersAux] at h
  | succ k ih =>
    intro cur i h
    cases i with
    | zero => simp [encryptPowersAux]
    | succ j =>
      have hj : j < (encryptPowersAux S pk c (cur * c) k).length := by
        have := h
        simp [encryptPowersAux] at this
        simpa [encryptPowersAux_length] using this
      have hstep : (encryptPowersAux S pk c cur (k + 1)).get ⟨j + 1, h⟩
          = (encryptPowersAux S pk c (cur * c) k).get ⟨j, hj⟩ := rfl
      rw [hstep, ih (cur * c) j hj]
      congr 1
      ring

/-- Decryption of one evaluation step with skipping: the step adds
exactly a_k times c to the k, also when the term is skipped. -/
theorem evalPolyStep_decrypt (S : Scheme) (kl : Nat) (coeffs : List Int)
    (n : Nat) (eps : List S.Ct) (c : Int) (result : S.Ct) (i : Nat)
    (hi : i < eps.length)
    (hdec : S.decrypt (S.keygen kl).2 (eps.get ⟨i, hi⟩) = c ^ (i + 1)) :
    S.decrypt (S.keygen kl).2 (evalPolyStep S coeffs n eps result i)
      = S.decrypt (S.keygen kl).2 result
        + coeffs.getD (n - (i + 1)) 0 * c ^ (i + 1) := by
  unfold evalPolyStep
  rw [List.get?_eq_get hi]
  by_cases hz : coeffs.getD (n - (i + 1)) 0 = 0
  · rw [if_neg (not_not_intro hz), hz]
    simp
  · rw [if_pos hz]
    have ha : addTerm S result (coeffs.getD (n - (i + 1)) 0)
        (some (eps.get ⟨i, hi⟩))
        = S.add result (S.scalarMul (eps.get ⟨i, hi⟩)
            (coeffs.getD (n - (i + 1)) 0)) := rfl
    rw [ha, S.decrypt_add kl, S.decrypt_scalarMul kl, hdec]
    ring

/-- Decryption of one evaluation step without skipping: identical
contribution. -/
theorem evalPolyStepNoSkip_decrypt (S : Scheme) (kl : Nat)
    (coeffs : List Int) (n : Nat) (eps : List S.Ct) (c : Int)
    (result : S.Ct) (i : Nat) (hi : i < eps.length)
    (hdec : S.decrypt (S.keygen kl).2 (eps.get ⟨i, hi⟩) = c ^ (i + 1)) :
    S.decrypt (S.keygen kl).2 (evalPolyStepNoSkip S coeffs n eps result i)
      = S.decrypt (S.keygen kl).2 result
        + coeffs.getD (n - (i + 1)) 0 * c ^ (i + 1) := by
  unfold evalPolyStepNoSkip
  rw [List.get?_eq_get hi]
  have ha : addTerm S result (coeffs.getD (n - (i + 1)) 0)
      (some (eps.get ⟨i, hi⟩))
      = S.add result (S.scalarMul (eps.get ⟨i, hi⟩)
          (coeffs.getD (n - (i + 1)) 0)) := rfl
  rw [ha, S.decrypt_add kl, S.decrypt_scalarMul kl, hdec]
  ring

/-- Decryption of the evaluation loop: the full power sum is
accumulated, zero-coefficient skipping notwithstanding. -/
theorem evalPolyLoop_decrypt (S : Scheme) (kl : Nat) (coeffs : List Int)
    (n : Nat) (eps : List S.Ct) (c : Int) (acc0 : S.Ct)
    (hlen : eps.length = n)
    (hdec : ∀ (i : Nat) (h : i < eps.length),
      S.decrypt (S.keygen kl).2 (eps.get ⟨i, h⟩) = c ^ (i + 1)) :
    S.decrypt (S.keygen kl).2 (evalPolyLoop S coeffs n eps acc0)
      = S.decrypt (S.keygen kl).2 acc0
        + ∑ i ∈ Finset.range n, coeffs.getD (n - (i + 1)) 0 * c ^ (i + 1) := by
  have haux : ∀ m, m ≤ n →
      S.decrypt (S.keygen kl).2
        ((List.range m).foldl (evalPolyStep S coeffs n eps) acc0)
      = S.decrypt (S.keygen kl).2 acc0
        + ∑ i ∈ Finset.range m, coeffs.getD (n - (i + 1)) 0 * c ^ (i + 1) := by
    intro m
    induction m with
    | zero => intro _; simp
    | succ m ih =>
      intro hm
      rw [List.range_succ, List.foldl_append, List.foldl_cons, List.foldl_nil,
        Finset.sum_range_succ]
      have hme : m < eps.length := by omega
      rw [evalPolyStep_decrypt S kl coeffs n eps c _ m hme (hdec m hme),
        ih (by omega)]
      ring
  exact haux n le_rfl

/-- Decryption of the no-skip evaluation loop: the same power sum. -/
theorem evalPolyLoopNoSkip_decrypt (S : Scheme) (kl : Nat)
    (coeffs : List Int) (n : Nat) (eps : List S.Ct) (c : Int) (acc0 : S.Ct)
    (hlen : eps.length = n)
    (hdec : ∀ (i : Nat) (h : i < eps.length),
      S.decrypt (S.keygen kl).2 (eps.get ⟨i, h⟩) = c ^ (i + 1)) :
    S.decrypt (S.keygen kl).2
        ((List.range n).foldl (evalPolyStepNoSkip S coeffs n eps) acc0)
      = S.decrypt (S.keygen kl).2 acc0
        + ∑ i ∈ Finset.range n, coeffs.getD (n - (i + 1)) 0 * c ^ (i + 1) := by
  have haux : ∀ m, m ≤ n →
      S.decrypt (S.keygen kl).2
        ((List.range m).foldl (evalPolyStepNoSkip S coeffs n eps) acc0)
      = S.decrypt (S.keygen kl).2 acc0
        + ∑ i ∈ Finset.range m, coeffs.getD (n - (i + 1)) 0 * c ^ (i + 1) := by
    intro m
    induction m with
    | zero => intro _; simp
    | succ m ih =>
      intro hm
      rw [List.range_succ, List.foldl_append, List.foldl_cons, List.foldl_nil,
        Finset.sum_range_succ]
      have hme : m < eps.length := by omega
      rw [evalPolyStepNoSkip_decrypt S kl coeffs n eps c _ m hme (hdec m hme),
        ih (by omega)]
      ring
  exact haux n le_rfl

/-- Decryption of the ciphertext the implemented evaluation produces
on a well-formed server, for encrypted powers that decrypt to the
powers of c: exactly the spec-worded polynomial value. -/
theorem evaluate_decrypt (S : Scheme) (kl : Nat) (ds : List Int) (c : Int)
    (eps : List S.Ct) (hlen : eps.length = (Server.init ds).n)
    (hdec : ∀ (i : Nat) (h : i < eps.length),
      S.decrypt (S.keygen kl).2 (eps.get ⟨i, h⟩) = c ^ (i + 1)) :
    S.decrypt (S.keygen kl).2
        (evalPolyLoop S (Server.init ds).coefficients (Server.init ds).n eps
          (S.encrypt (S.keygen kl).1
            ((Server.init ds).coefficients.getD
              ((Server.init ds).coefficients.length - 1) 0)))
      = evalPolyAt (Server.init ds).coefficients c := by
  have hclen : (Server.init ds).coefficients.length = (Server.init ds).n + 1 := by
    show (compute_polynomial_coefficients ds.dedup).length = ds.dedup.length + 1
    exact compute_length ds.dedup
  rw [evalPolyLoop_decrypt S kl _ _ eps c _ hlen hdec, S.decrypt_encrypt kl,
    evalPolyAt_split (Server.init ds).coefficients (Server.init ds).n c hclen,
    hclen]
  norm_num

/-- The encrypted powers produced by the client decrypt to the powers
of the query under the matching private key. -/
theorem encryptPowers_decrypt (S : Scheme) (kl : Nat) (c : Int) (n : Nat) :
    ∀ (i : Nat) (h : i < (encryptPowersAux S (S.keygen kl).1 c 1 n).length),
      S.decrypt (S.keygen kl).2
          ((encryptPowersAux S (S.keygen kl).1 c 1 n).get ⟨i, h⟩)
        = c ^ (i + 1) := by
  intro i h
  rw [encryptPowersAux_get, S.decrypt_encrypt kl, one_mul]

/-- Closed form of a full protocol run: it always succeeds, the
decrypted result is the blinded polynomial value, and the diagnostic
record is as assembled by the source. -/
theorem run_protocol_eq (S : Scheme) (q : Int) (ds : List Int) (kl : Nat)
    (r : Int) :
    run_protocol S q ds kl r
      = Except.ok
          (Client.check_membership (evalPolyAt (Server.init ds).coefficients q * r),
           { query := q
             dataset_size := ds.length
             polynomial_degree := (Server.init ds).n
             coefficients := (Server.init ds).coefficients
             decrypted_result := evalPolyAt (Server.init ds).coefficients q * r
             is_member :=
               Client.check_membership
                 (evalPolyAt (Server.init ds).coefficients q * r)
             actual_membership := ds.contains q }) := by
  have hlen := encryptPowersAux_length S (S.keygen kl).1 q (Server.init ds).n 1
  have heval := evaluate_decrypt S kl ds q
    (encryptPowersAux S (S.keygen kl).1 q 1 (Server.init ds).n) hlen
    (encryptPowers_decrypt S kl q (Server.init ds).n)
  simp only [run_protocol, Client.generate_keys, Client.init,
    Client.encrypt_query, Server.evaluate_polynomial_homomorphic, hlen,
    ne_eq, not_true_eq_false, if_false, Server.blind_and_return,
    Client.decrypt_result, Server.evaluate_polynomial_homomorphic]
  rw [S.decrypt_scalarMul kl, heval]

/-- The polynomial the server stores vanishes at members of the input
dataset. -/
theorem evalPolyAt_mem_zero (ds : List Int) (q : Int) (hm : q ∈ ds) :
    evalPolyAt (Server.init ds).coefficients q = 0 := by
  show evalPolyAt (compute_polynomial_coefficients ds.dedup) q = 0
  rw [← horner_eq_evalPolyAt, horner_compute]
  exact prod_sub_eq_zero ds.dedup q (List.mem_dedup.mpr hm)

/-- The polynomial the server stores does not vanish at non-members. -/
theorem evalPolyAt_not_mem_ne_zero (ds : List Int) (q : Int) (hm : q ∉ ds) :
    evalPolyAt (Server.init ds).coefficients q ≠ 0 := by
  show evalPolyAt (compute_polynomial_coefficients ds.dedup) q ≠ 0
  rw [← horner_eq_evalPolyAt, horner_compute]
  exact prod_sub_ne_zero ds.dedup q (fun hmem => hm (List.mem_dedup.mp hmem))

/-- The zero test on the blinded polynomial value decides membership
in the dataset, for any non-zero blinding factor. -/
theorem check_membership_blinded (ds : List Int) (q r : Int) (hr : r ≠ 0) :
    Client.check_membership (evalPolyAt (Server.init ds).coefficients q * r)
      = decide (q ∈ ds) := by
  unfold Client.check_membership
  by_cases hm : q ∈ ds
  · rw [evalPolyAt_mem_zero ds q hm, zero_mul]
    simp [hm]
  · have hne : evalPolyAt (Server.init ds).coefficients q * r ≠ 0 :=
      mul_ne_zero (evalPolyAt_not_mem_ne_zero ds q hm) hr
    simp [hm, hne]

/-- Claim C1: a full protocol run returns the ground-truth membership
verdict; the empty dataset always yields false, and a member query
decrypts to exactly 0. -/
theorem C1_run_protocol_matches_ground_truth (S : Scheme) (q : Int)
    (ds : List Int) (kl : Nat) (r : Int) (hr : 1 ≤ r) :
    ∃ info : ProtocolInfo,
      run_protocol S q ds kl r = Except.ok (decide (q ∈ ds), info)
        ∧ (q ∈ ds → info.decrypted_result = 0)
        ∧ (ds = [] → decide (q ∈ ds) = false) := by
  refine ⟨{ query := q
            dataset_size := ds.length
            polynomial_degree := (Server.init ds).n
            coefficients := (Server.init ds).coefficients
            decrypted_result := evalPolyAt (Server.init ds).coefficients q * r
            is_member :=
              Client.check_membership
                (evalPolyAt (Server.init ds).coefficients q * r)
            actual_membership := ds.contains q }, ?_, ?_, ?_⟩
  · rw [run_protocol_eq S q ds kl r,
      check_membership_blinded ds q r (by omega)]
  · intro hm
    show evalPolyAt (Server.init ds).coefficients q * r = 0
    rw [evalPolyAt_mem_zero ds q hm, zero_mul]
  · intro he
    subst he
    simp

/-- Witness for C1 on end-to-end scenario 1 of the spec. -/
theorem C1_witness :
    (1 : Int) ≤ 1 ∧
    ∃ info : ProtocolInfo,
      run_protocol idScheme 5 [1, 3, 5, 7, 9] 16 1
          = Except.ok (decide ((5 : Int) ∈ [1, 3, 5, 7, 9]), info)
        ∧ ((5 : Int) ∈ [1, 3, 5, 7, 9] → info.decrypted_result = 0)
        ∧ (([1, 3, 5, 7, 9] : List Int) = []
            → decide ((5 : Int) ∈ [1, 3, 5, 7, 9]) = false) :=
  ⟨by decide,
   C1_run_protocol_matches_ground_truth idScheme 5 [1, 3, 5, 7, 9] 16 1
     (by decide)⟩

/-- Claim C2: every element of the dataset is a root of the computed
polynomial, evaluated in plain integer arithmetic. -/
theorem C2_polynomial_root_property (ds : List Int) (s : Int) (hs : s ∈ ds) :
    evalPolyAt (Server.init ds).coefficients s = 0 :=
  evalPolyAt_mem_zero ds s hs

/-- Witness for C2. -/
theorem C2_witness :
    (3 : Int) ∈ [(1 : Int), 3, 5]
      ∧ evalPolyAt (Server.init [(1 : Int), 3, 5]).coefficients 3 = 0 :=
  ⟨by decide, C2_polynomial_root_property [(1 : Int), 3, 5] 3 (by decide)⟩

/-- Claim C3: a non-member of a non-empty dataset is not a root of the
computed polynomial. -/
theorem C3_polynomial_nonroot_property (ds : List Int) (s : Int)
    (hne : ds ≠ []) (hs : s ∉ ds) :
    evalPolyAt (Server.init ds).coefficients s ≠ 0 :=
  evalPolyAt_not_mem_ne_zero ds s hs

/-- Witness for C3. -/
theorem C3_witness :
    ([(1 : Int), 2] : List Int) ≠ []
      ∧ (5 : Int) ∉ [(1 : Int), 2]
      ∧ evalPolyAt (Server.init [(1 : Int), 2]).coefficients 5 ≠ 0 :=
  ⟨by decide, by decide,
   C3_polynomial_nonroot_property [(1 : Int), 2] 5 (by decide) (by decide)⟩

/-- Claim C4: on matching degree, the homomorphic evaluation succeeds
and its result decrypts to the plain integer polynomial value; the
spec-worded no-skip evaluation decrypts to the same value, so skipping
zero coefficients does not change the decrypted result. -/
theorem C4_homomorphic_evaluation (S : Scheme) (kl : Nat) (ds : List Int)
    (c : Int) (eps : List S.Ct)
    (hlen : eps.length = (Server.init ds).n)
    (hdec : ∀ (i : Nat) (h : i < eps.length),
      S.decrypt (S.keygen kl).2 (eps.get ⟨i, h⟩) = c ^ (i + 1)) :
    ∃ res res2,
      Server.evaluate_polynomial_homomorphic S (Server.init ds)
          (S.keygen kl).1 eps = Except.ok res
        ∧ evaluate_polynomial_homomorphic_spec S (Server.init ds)
            (S.keygen kl).1 eps = Except.ok res2
        ∧ S.decrypt (S.keygen kl).2 res
            = evalPolyAt (Server.init ds).coefficients c
        ∧ S.decrypt (S.keygen kl).2 res2 = S.decrypt (S.keygen kl).2 res := by
  have h1 : Server.evaluate_polynomial_homomorphic S (Server.init ds)
      (S.keygen kl).1 eps
      = Except.ok (evalPolyLoop S (Server.init ds).coefficients
          (Server.init ds).n eps
          (S.encrypt (S.keygen kl).1 ((Server.init ds).coefficients.getD
            ((Server.init ds).coefficients.length - 1) 0))) := by
    unfold Server.evaluate_polynomial_homomorphic
    rw [if_neg (not_not_intro hlen)]
  have h2 : evaluate_polynomial_homomorphic_spec S (Server.init ds)
      (S.keygen kl).1 eps
      = Except.ok ((List.range (Server.init ds).n).foldl
          (evalPolyStepNoSkip S (Server.init ds).coefficients
            (Server.init ds).n eps)
          (S.encrypt (S.keygen kl).1 ((Server.init ds).coefficients.getD
            ((Server.init ds).coefficients.length - 1) 0))) := by
    unfold evaluate_polynomial_homomorphic_spec
    rw [if_neg (not_not_intro hlen)]
  refine ⟨_, _, h1, h2, ?_, ?_⟩
  · exact evaluate_decrypt S kl ds c eps hlen hdec
  · rw [evalPolyLoopNoSkip_decrypt S kl (Server.init ds).coefficients
        (Server.init ds).n eps c _ hlen hdec]
    show _ = S.decrypt (S.keygen kl).2
      (evalPolyLoop S (Server.init ds).coefficients (Server.init ds).n eps _)
    rw [evalPolyLoop_decrypt S kl (Server.init ds).coefficients
        (Server.init ds).n eps c _ hlen hdec]

/-- Witness for C4. -/
theorem C4_witness :
    ([idCt 3, idCt 9]).length = (Server.init [(1 : Int), 2]).n
      ∧ (∀ (i : Nat) (h : i < ([idCt 3, idCt 9]).length),
          idScheme.decrypt (idScheme.keygen 8).2
              (([idCt 3, idCt 9]).get ⟨i, h⟩) = 3 ^ (i + 1))
      ∧ ∃ res res2,
          Server.evaluate_polynomial_homomorphic idScheme
              (Server.init [(1 : Int), 2]) (idScheme.keygen 8).1
              ([idCt 3, idCt 9]) = Except.ok res
            ∧ evaluate_polynomial_homomorphic_spec idScheme
                (Server.init [(1 : Int), 2]) (idScheme.keygen 8).1
                ([idCt 3, idCt 9]) = Except.ok res2
            ∧ idScheme.decrypt (idScheme.keygen 8).2 res
                = evalPolyAt (Server.init [(1 : Int), 2]).coefficients 3
            ∧ idScheme.decrypt (idScheme.keygen 8).2 res2
                = idScheme.decrypt (idScheme.keygen 8).2 res :=
  ⟨by decide, by decide,
   C4_homomorphic_evaluation idScheme 8 [(1 : Int), 2] 3
     ([idCt 3, idCt 9]) (by decide) (by decide)⟩

/-- Claim C5: blinding multiplies the decrypted value by the drawn
factor r in [1, maxBlindingFactor]; it preserves zero exactly and maps
non-zero values to non-zero values. -/
theorem C5_blinding (S : Scheme) (kl : Nat) (sv : Server) (ct : S.Ct)
    (max_blinding_factor r : Int)
    (hr1 : 1 ≤ r) (hr2 : r ≤ max_blinding_factor) :
    S.decrypt (S.keygen kl).2
        (Server.blind_and_return S sv ct max_blinding_factor r)
      = S.decrypt (S.keygen kl).2 ct * r
    ∧ (S.decrypt (S.keygen kl).2 ct = 0 →
        S.decrypt (S.keygen kl).2
          (Server.blind_and_return S sv ct max_blinding_factor r) = 0)
    ∧ (S.decrypt (S.keygen kl).2 ct ≠ 0 →
        S.decrypt (S.keygen kl).2
          (Server.blind_and_return S sv ct max_blinding_factor r) ≠ 0) := by
  have hd : S.decrypt (S.keygen kl).2
      (Server.blind_and_return S sv ct max_blinding_factor r)
      = S.decrypt (S.keygen kl).2 ct * r := S.decrypt_scalarMul kl ct r
  refine ⟨hd, ?_, ?_⟩
  · intro h0
    rw [hd, h0, zero_mul]
  · intro h0
    rw [hd]
    exact mul_ne_zero h0 (by omega)

/-- Witness for C5. -/
theorem C5_witness :
    (1 : Int) ≤ 3 ∧ (3 : Int) ≤ 1000
      ∧ (idScheme.decrypt (idScheme.keygen 8).2
            (Server.blind_and_return idScheme (Server.init [(1 : Int)])
              (idCt 7) 1000 3)
          = idScheme.decrypt (idScheme.keygen 8).2 (idCt 7) * 3
        ∧ (idScheme.decrypt (idScheme.keygen 8).2 (idCt 7) = 0 →
            idScheme.decrypt (idScheme.keygen 8).2
              (Server.blind_and_return idScheme (Server.init [(1 : Int)])
                (idCt 7) 1000 3) = 0)
        ∧ (idScheme.decrypt (idScheme.keygen 8).2 (idCt 7) ≠ 0 →
            idScheme.decrypt (idScheme.keygen 8).2
              (Server.blind_and_return idScheme (Server.init [(1 : Int)])
                (idCt 7) 1000 3) ≠ 0)) :=
  ⟨by decide, by decide,
   C5_blinding idScheme 8 (Server.init [(1 : Int)]) (idCt 7) 1000 3
     (by decide) (by decide)⟩

/-- Claim C6: for every input dataset the stored coefficient list has
length n + 1 where n is the number of distinct elements, and the
leading coefficient is 1; the server state never mutates after
construction, so this holds for every reachable server. -/
theorem C6_degree_invariant (ds : List Int) :
    (Server.init ds).coefficients.length = (Server.init ds).n + 1
      ∧ (Server.init ds).n = ds.toFinset.card
      ∧ (Server.init ds).coefficients.head? = some 1 := by
  refine ⟨?_, ?_, ?_⟩
  · exact compute_length ds.dedup
  · show ds.dedup.length = ds.toFinset.card
    rw [List.card_toFinset]
  · exact compute_head ds.dedup

/-- Claim C7: the homomorphic evaluation fails exactly when the number
of encrypted powers differs from the polynomial degree n. -/
theorem C7_degree_mismatch_iff (S : Scheme) (sv : Server) (pk : S.PK)
    (eps : List S.Ct) :
    (∃ e, Server.evaluate_polynomial_homomorphic S sv pk eps
        = Except.error e)
      ↔ eps.length ≠ sv.n := by
  unfold Server.evaluate_polynomial_homomorphic
  by_cases h : eps.length = sv.n
  · simp [h]
  · simp [h]

/-- Claim C8: before key generation both client cryptographic
operations fail with the key-absence error; after key generation
neither fails. -/
theorem C8_keys_not_initialized (S : Scheme) (c : Int) (n : Nat) (kl : Nat)
    (ct : S.Ct) :
    Client.encrypt_query (Client.init S) c n
        = Except.error ("Keys must be generated first. Call generate_keys()")
      ∧ Client.decrypt_result (Client.init S) ct
          = Except.error ("Private key not available")
      ∧ (∃ eps, Client.encrypt_query
          ((Client.generate_keys (Client.init S) kl).1) c n = Except.ok eps)
      ∧ (∃ v, Client.decrypt_result
          ((Client.generate_keys (Client.init S) kl).1) ct = Except.ok v) :=
  ⟨rfl, rfl, ⟨_, rfl⟩, ⟨_, rfl⟩⟩

/-- Claim C9: two datasets with the same set of distinct elements give
the same degree and the same polynomial coefficients; duplicates and
element order are irrelevant to the encoding. -/
theorem C9_dataset_order_irrelevant (ds1 ds2 : List Int)
    (h : ds1.toFinset = ds2.toFinset) :
    (Server.init ds1).n = (Server.init ds2).n
      ∧ (Server.init ds1).coefficients = (Server.init ds2).coefficients := by
  have hperm : ds1.dedup.Perm ds2.dedup :=
    List.toFinset_eq_iff_perm_dedup.mp h
  constructor
  · exact hperm.length_eq
  · show compute_polynomial_coefficients ds1.dedup
      = compute_polynomial_coefficients ds2.dedup
    rw [compute_eq_foldl, compute_eq_foldl]
    exact foldl_mulByRoot_perm hperm [1]

/-- Witness for C9. -/
theorem C9_witness :
    ([(1 : Int), 2, 2] : List Int).toFinset = ([(2 : Int), 1] : List Int).toFinset
      ∧ ((Server.init [(1 : Int), 2, 2]).n = (Server.init [(2 : Int), 1]).n
        ∧ (Server.init [(1 : Int), 2, 2]).coefficients
            = (Server.init [(2 : Int), 1]).coefficients) :=
  ⟨by decide, C9_dataset_order_irrelevant [(1 : Int), 2, 2] [(2 : Int), 1]
    (by decide)⟩

/-- Claim C10: the diagnostics report the raw input length as
dataset_size and the number of distinct elements as polynomial_degree,
the two coincide exactly when the input is duplicate-free, and the
verdict is computed against the deduplicated set. -/
theorem C10_diagnostics_duplicates (S : Scheme) (q : Int) (ds : List Int)
    (kl : Nat) (r : Int) (hr : 1 ≤ r) :
    ∃ (b : Bool) (info : ProtocolInfo),
      run_protocol S q ds kl r = Except.ok (b, info)
        ∧ info.dataset_size = ds.length
        ∧ info.polynomial_degree = ds.toFinset.card
        ∧ (info.dataset_size = info.polynomial_degree ↔ ds.Nodup)
        ∧ b = decide (q ∈ ds.dedup) := by
  refine ⟨_, _, run_protocol_eq S q ds kl r, rfl, ?_, ?_, ?_⟩
  · show ds.dedup.length = ds.toFinset.card
    rw [List.card_toFinset]
  · show ds.length = ds.dedup.length ↔ ds.Nodup
    constructor
    · intro hl
      have hsub := List.dedup_sublist ds
      have heq := hsub.eq_of_length hl.symm
      rw [← heq]
      exact List.nodup_dedup ds
    · intro hn
      rw [List.dedup_eq_self.mpr hn]
  · show Client.check_membership
        (evalPolyAt (Server.init ds).coefficients q * r)
      = decide (q ∈ ds.dedup)
    rw [check_membership_blinded ds q r (by omega)]
    simp [List.mem_dedup]

/-- Witness for C10 on a dataset with a duplicate entry. -/
theorem C10_witness :
    (1 : Int) ≤ 2 ∧
    ∃ (b : Bool) (info : ProtocolInfo),
      run_protocol idScheme 1 [1, 1, 2] 8 2 = Except.ok (b, info)
        ∧ info.dataset_size = ([(1 : Int), 1, 2] : List Int).length
        ∧ info.polynomial_degree = ([(1 : Int), 1, 2] : List Int).toFinset.card
        ∧ (info.dataset_size = info.polynomial_degree
            ↔ ([(1 : Int), 1, 2] : List Int).Nodup)
        ∧ b = decide ((1 : Int) ∈ ([(1 : Int), 1, 2] : List Int).dedup) :=
  ⟨by decide, C10_diagnostics_duplicates idScheme 1 [1, 1, 2] 8 2 (by decide)⟩
